import Mathlib

/-!
Verification development for the picross (nonogram) constraint-propagation
solver of `picross_solver.py`.

The shallow embedding below mirrors the source:
* a board cell (`Cell`) is `Option Bool`: `none` is an Unknown cell (`None`
  in the source), `some true` a Filled cell (the character `"1"`), and
  `some false` an Empty cell (the character `"0"`);
* a candidate line (`Pattern`) is a `List Bool` standing for the source's
  strings over `{"0", "1"}`;
* a Python `set` of candidate lines is a `Finset Pattern`;
* functions that can raise an exception in Python (an `IndexError` from an
  out-of-range access) return `Option`, with `none` marking the raise;
* the solver state (`PState`) carries the grid plus the per-row and
  per-column candidate sets (`self.board`, `self.verposs`, `self.horposs`).
-/

namespace Picross

/-- A cell of the grid: `none` = Unknown, `some true` = Filled ("1"),
`some false` = Empty ("0"). -/
abbrev Cell := Option Bool

/-- A fully specified candidate line, `"1"` as `true`, `"0"` as `false`. -/
abbrev Pattern := List Bool

/-- Embedding of `get_numsposs(nums, remain_len)`: all placements of the
blocks `nums` in a line of length `remain_len`.  The length argument is an
`Int` because the Python recursion computes `deg_of_free` with ordinary
integer arithmetic (a negative value makes `range(deg_of_free+1)` empty). -/
def get_numsposs (nums : List Nat) (remain_len : Int) : Finset Pattern :=
  match nums with
  | [] => {[]}
  | b :: rest =>
    if b = 0 ∧ rest = [] then {List.replicate remain_len.toNat false}
    else
      let deg : Int := 1 + remain_len - ((b :: rest).sum : Int) - ((b :: rest).length : Int)
      (Finset.range (deg + 1).toNat).biUnion (fun i =>
        if rest = [] then
          {List.replicate i false ++ List.replicate b true ++
            List.replicate (remain_len - ((i : Int) + (b : Int))).toNat false}
        else
          (get_numsposs rest (remain_len - ((i : Int) + (b : Int) + 1))).image
            (fun endp => List.replicate i false ++ List.replicate b true ++ false :: endp))

/-- Inner loop of `poss_intersection`: scan the remaining patterns at
position `i` against the reference character `c`; Python breaks out at the
first disagreement (cell result `None`, here `some none`), and raises an
`IndexError` (here `none`) when a pattern is too short. -/
def checkPos (c : Bool) (i : Nat) : List Pattern → Option Cell
  | [] => some (some c)
  | p :: ps =>
    match p.get? i with
    | none => none
    | some b => if b = c then checkPos c i ps else some none

/-- Embedding of `poss_intersection(line_poss)` on an explicitly ordered
list of patterns (Python iterates `tuple(line_poss)`).  `none` is the
`IndexError` raised on an empty input (`line_poss[0]`) or a too-short
pattern (`poss[i]`). -/
def poss_intersection : List Pattern → Option (List Cell)
  | [] => none
  | [single] => some (single.map some)
  | first :: p :: rest =>
    (List.enum first).mapM (fun ic => checkPos ic.2 ic.1 (p :: rest))

/-- An injective numeric key on patterns (binary value with a leading-one
sentinel), used only to fix one concrete iteration order for Python sets. -/
def patKey : Pattern → Nat
  | [] => 1
  | b :: t => 2 * patKey t + (if b then 1 else 0)

theorem patKey_pos : ∀ p : Pattern, 1 ≤ patKey p
  | [] => le_refl 1
  | b :: t => by
    have h := patKey_pos t
    simp only [patKey]
    omega

theorem patKey_injective : Function.Injective patKey := by
  intro a
  induction a with
  | nil =>
    intro b h
    cases b with
    | nil => rfl
    | cons c t =>
      exfalso
      have ht := patKey_pos t
      simp only [patKey] at h
      split at h <;> omega
  | cons c t ih =>
    intro b h
    cases b with
    | nil =>
      exfalso
      have ht := patKey_pos t
      simp only [patKey] at h
      split at h <;> omega
    | cons c2 t2 =>
      simp only [patKey] at h
      have hc : c = c2 := by
        cases c <;> cases c2 <;> simp_all <;> omega
      subst hc
      have ht : patKey t = patKey t2 := by split at h <;> omega
      rw [ih ht]

/-- The fixed total order on patterns used to iterate Python sets. -/
def patLe (a b : Pattern) : Prop := patKey a ≤ patKey b

instance : DecidableRel patLe := fun a b => Nat.decLe (patKey a) (patKey b)

instance : IsTrans Pattern patLe := ⟨fun _ _ _ h1 h2 => Nat.le_trans h1 h2⟩

instance : IsTotal Pattern patLe := ⟨fun a b => Nat.le_total (patKey a) (patKey b)⟩

instance : IsAntisymm Pattern patLe :=
  ⟨fun _ _ h1 h2 => patKey_injective (Nat.le_antisymm h1 h2)⟩

/-- Extract the elements of a Python set as a list, in the fixed `patLe`
order (insertion sort lifts through the multiset quotient because sorted
lists are unique in their permutation class). -/
def sortedPats (s : Finset Pattern) : List Pattern :=
  Quot.liftOn s.val (fun l => List.insertionSort patLe l) (fun l1 l2 h =>
    List.eq_of_perm_of_sorted
      ((List.perm_insertionSort patLe l1).trans
        (h.trans (List.perm_insertionSort patLe l2).symm))
      (List.sorted_insertionSort patLe l1)
      (List.sorted_insertionSort patLe l2))

/-- `poss_intersection` applied to a Python `set`: the set is iterated in
some fixed (unspecified) order, which we instantiate with the `patLe`
order. -/
def poss_intersection_fin (s : Finset Pattern) : Option (List Cell) :=
  poss_intersection (sortedPats s)

/-- The Python truth test `A or B` on cells `"0" | "1" | None`: nonempty
strings are truthy, so a known cell always wins over the second operand. -/
def cellOr (a b : Cell) : Cell :=
  match a with
  | some v => some v
  | none => b

/-- Embedding of `combine_known_nums(numsA, numsB)`:
`[A or numsB[i] for i, A in enumerate(numsA)]`. -/
def combine_known_nums (numsA numsB : List Cell) : List Cell :=
  numsA.mapIdx (fun i a => cellOr a (numsB.getD i none))

/-- Embedding of the constructed `PicrossBoard` object: `horlist` are the
hints at the top (one per column), `verlist` the hints on the left (one per
row); parsing the hint strings into integer lists is outside the core. -/
structure PicrossBoard where
  horlist : List (List Nat)
  verlist : List (List Nat)
deriving DecidableEq

/-- `self.height = len(self.verlist)`. -/
def PicrossBoard.height (b : PicrossBoard) : Nat := b.verlist.length

/-- `self.width = len(self.horlist)`. -/
def PicrossBoard.width (b : PicrossBoard) : Nat := b.horlist.length

/-- The mutable solver state: the grid `self.board` plus the live
candidate sets `self.verposs` (one per row) and `self.horposs` (one per
column). -/
structure PState where
  board : List (List Cell)
  verposs : List (Finset Pattern)
  horposs : List (Finset Pattern)
deriving DecidableEq

/-- One column-seeding step of `initial_possibilities`:
`self.board[:, x] = combine_known_nums(self.board[:, x], intersection)`. -/
def applyColSeed (bd : List (List Cell)) (x : Nat) (inter : List Cell) :
    List (List Cell) :=
  bd.mapIdx (fun i row => row.set x (cellOr (row.getD x none) (inter.getD i none)))

/-- Embedding of `initial_possibilities`: enumerate every row's and every
column's candidate set, seed the grid with the row intersections, then
merge in the column intersections with `combine_known_nums` (row value
first).  `none` is a raised exception (an empty candidate set makes
`poss_intersection` raise). -/
def initial_possibilities (b : PicrossBoard) : Option PState := do
  let rowData ← b.verlist.mapM (fun nums =>
    let poss := get_numsposs nums (b.width : Int)
    (poss_intersection_fin poss).map (fun inter => (poss, inter)))
  let colData ← b.horlist.mapM (fun nums =>
    let poss := get_numsposs nums (b.height : Int)
    (poss_intersection_fin poss).map (fun inter => (poss, inter)))
  let board0 := rowData.map Prod.snd
  let board1 := colData.enum.foldl (fun bd xd => applyColSeed bd xd.1 xd.2.2) board0
  pure ⟨board1, rowData.map Prod.fst, colData.map Prod.fst⟩

/-- Does pattern `p` agree with every already-known cell of `cells`?  This
is the membership test of the pruning loop
`for i, c in enumerate(nums): ... if poss[i] != c: possible.remove(poss)`. -/
def rowAgrees (p : Pattern) (cells : List Cell) : Bool :=
  cells.enum.all (fun ic =>
    match ic.2 with
    | none => true
    | some v => p.getD ic.1 false == v)

/-- Pruning one line's candidate set against its currently known cells;
iterating `frozenset(possible)` while removing from `possible` is exactly a
filter over a snapshot of the set. -/
def pruneLine (poss : Finset Pattern) (cells : List Cell) : Finset Pattern :=
  poss.filter (fun p => rowAgrees p cells)

/-- `list(possible)[0]` on a singleton set (iteration order is irrelevant
because this is only applied when `possible` has exactly one element). -/
def singletonPat (poss : Finset Pattern) : Pattern := (sortedPats poss).headI

/-- Processing of one row inside `ruleout_rows`: write the pattern if the
set is already a singleton, otherwise prune and write if the pruned set
became a singleton. -/
def ruleoutRow (row : List Cell) (poss : Finset Pattern) :
    List Cell × Finset Pattern :=
  if poss.card = 1 then ((singletonPat poss).map some, poss)
  else
    let poss2 := pruneLine poss row
    if poss2.card = 1 then ((singletonPat poss2).map some, poss2) else (row, poss2)

/-- Embedding of `ruleout_rows`: each row is processed against its own
cells and its own candidate set (rows never write other rows, so the
sequential Python loop acts independently per row). -/
def ruleout_rows (s : PState) : PState :=
  let pairs := List.zipWith ruleoutRow s.board s.verposs
  ⟨pairs.map Prod.fst, pairs.map Prod.snd, s.horposs⟩

/-- `self.board[:, x]` (a raised `IndexError` for a ragged board is not
modelled; constructed boards are rectangular). -/
def getCol (bd : List (List Cell)) (x : Nat) : List Cell :=
  bd.map (fun row => row.getD x none)

/-- `self.board[:, x] = [*pattern]`. -/
def setCol (bd : List (List Cell)) (x : Nat) (p : Pattern) :
    List (List Cell) :=
  bd.mapIdx (fun i row => row.set x (some (p.getD i false)))

/-- Processing of one column inside `ruleout_cols`: the resulting candidate
set, plus the pattern to write into the column when the set is (or becomes)
a singleton. -/
def ruleoutCol (col : List Cell) (poss : Finset Pattern) :
    Finset Pattern × Option Pattern :=
  if poss.card = 1 then (poss, some (singletonPat poss))
  else
    let poss2 := pruneLine poss col
    if poss2.card = 1 then (poss2, some (singletonPat poss2)) else (poss2, none)

/-- Application of one column's singleton write (if any) to the grid,
`xr` being the column index paired with that column's `ruleoutCol` result. -/
def colStep (bd : List (List Cell)) (xr : Nat × (Finset Pattern × Option Pattern)) :
    List (List Cell) :=
  match xr.2.2 with
  | some p => setCol bd xr.1 p
  | none => bd

/-- Embedding of `ruleout_cols`: column `x` reads only column `x` of the
grid and writes only column `x`, so the sequential Python loop acts
independently per column; all the singleton writes are then applied. -/
def ruleout_cols (s : PState) : PState :=
  let results := s.horposs.mapIdx (fun x poss => ruleoutCol (getCol s.board x) poss)
  ⟨results.enum.foldl colStep s.board, s.verposs, results.map Prod.fst⟩

/-- Embedding of `remaining_squares`: `count_nonzero(self.board == None)`. -/
def remaining_squares (s : PState) : Nat :=
  (s.board.map (fun row => row.count none)).sum

/-- One full propagation cycle of the `while` loop body:
`self.ruleout_rows(); self.ruleout_cols()`. -/
def cycle (s : PState) : PState := ruleout_cols (ruleout_rows s)

/-- The `while (stuckcheck := self.remaining_squares()): ...` loop of
`solve`, written with explicit fuel (the loop provably needs at most
`remaining_squares s` iterations, see the termination theorems below):
`some s` is `return self`, `none` is `return None` (no progress made). -/
def solveGo : Nat → PState → Option PState
  | 0, _ => none
  | fuel + 1, s =>
    if remaining_squares s = 0 then some s
    else
      let s2 := cycle s
      if remaining_squares s2 = remaining_squares s then none
      else solveGo fuel s2

/-- The number of full row+column cycles the `solve` loop runs before
returning, with the same fuel discipline as `solveGo`. -/
def cyclesUsed : Nat → PState → Nat
  | 0, _ => 0
  | fuel + 1, s =>
    if remaining_squares s = 0 then 0
    else
      let s2 := cycle s
      if remaining_squares s2 = remaining_squares s then 1
      else 1 + cyclesUsed fuel s2

/-- Embedding of `solve`: run `initial_possibilities`, then the propagation
loop.  The outer `Option` is a raised exception escaping `solve`; the inner
`Option` is the function's Python return value (`some s` = `return self`,
`none` = `return None` on a stalled cycle). -/
def solve (b : PicrossBoard) : Option (Option PState) :=
  (initial_possibilities b).map (fun s => solveGo (remaining_squares s + 1) s)

/-! ### Helper lemmas about the set-iteration order -/

theorem sortedPats_coe (s : Finset Pattern) :
    (↑(sortedPats s) : Multiset Pattern) = s.val := by
  rcases s with ⟨val, nodup⟩
  induction val using Quotient.inductionOn with
  | h l =>
    exact Quot.sound (List.perm_insertionSort patLe l)

theorem mem_sortedPats {p : Pattern} {s : Finset Pattern} :
    p ∈ sortedPats s ↔ p ∈ s := by
  rw [← Multiset.mem_coe, sortedPats_coe]
  exact Iff.rfl

theorem length_sortedPats (s : Finset Pattern) :
    (sortedPats s).length = s.card := by
  have h := sortedPats_coe s
  calc (sortedPats s).length = Multiset.card (↑(sortedPats s) : Multiset Pattern) := rfl
    _ = Multiset.card s.val := by rw [h]
    _ = s.card := rfl

theorem sortedPats_singleton (a : Pattern) : sortedPats {a} = [a] := rfl

theorem singletonPat_singleton (a : Pattern) : singletonPat {a} = a := rfl

theorem eq_singletonPat_of_card_one {poss : Finset Pattern}
    (h : poss.card = 1) : poss = {singletonPat poss} := by
  obtain ⟨a, ha⟩ := Finset.card_eq_one.mp h
  subst ha
  rw [singletonPat_singleton]

theorem mem_card_one {p : Pattern} {poss : Finset Pattern}
    (h : poss.card = 1) (hp : p ∈ poss) : p = singletonPat poss := by
  rw [eq_singletonPat_of_card_one h] at hp
  simpa using hp

/-! ### C1 -/

/-- C1, amended: the propagation loop returns either (Python) `None`, or
the solver state itself evolved by some number of full row+column cycles
with its Unknown count at zero; when it stalls it returns `None`, not the
board. -/
theorem claim_C1_thm : ∀ (fuel : Nat) (s : PState),
    solveGo fuel s = none ∨
    ∃ n, solveGo fuel s = some (cycle^[n] s) ∧
      remaining_squares (cycle^[n] s) = 0 := by
  intro fuel
  induction fuel with
  | zero => intro s; left; rfl
  | succ n ih =>
    intro s
    by_cases h0 : remaining_squares s = 0
    · right
      refine ⟨0, ?_, ?_⟩
      · simp [solveGo, h0]
      · simpa using h0
    · by_cases h1 : remaining_squares (cycle s) = remaining_squares s
      · left; simp [solveGo, h0, h1]
      · rcases ih (cycle s) with h | ⟨m, h2, h3⟩
        · left; simpa [solveGo, h0, h1] using h
        · right
          refine ⟨m + 1, ?_, ?_⟩
          · rw [Function.iterate_succ_apply]
            simpa [solveGo, h0, h1] using h2
          · rw [Function.iterate_succ_apply]
            exact h3

/-- C1, counterexample: for the ambiguous 2×2 puzzle (`row=["1","1"]`,
`col=["1","1"]`), seeding leaves 4 Unknown cells and `solve` returns the
Python value `None` (`some none`: no exception, but no board returned),
refuting "solve still returns the Board holding its partial grid". -/
theorem claim_C1_counterexample :
    solve ⟨[[1], [1]], [[1], [1]]⟩ = some none ∧
    (initial_possibilities ⟨[[1], [1]], [[1], [1]]⟩).map remaining_squares =
      some 4 := by
  constructor
  · decide
  · decide

/-! ### C2 -/

/-- C2, amended: when pruning empties a line's CandidateSet the solver does
not report any distinct contradiction outcome: in the contradictory puzzle
`row=["3","3","1"]`, `col=["1","1","1"]` the first full cycle empties
column 0's CandidateSet, and `solve` simply returns the Python value
`None`. -/
theorem claim_C2_thm :
    (initial_possibilities ⟨[[1], [1], [1]], [[3], [3], [1]]⟩).map
      (fun s => (cycle s).horposs.getD 0 ∅) = some (∅ : Finset Pattern) ∧
    solve ⟨[[1], [1], [1]], [[3], [3], [1]]⟩ = some none := by
  constructor
  · decide
  · decide

/-- C2, counterexample: pruning empties a CandidateSet in the contradictory
puzzle, yet `solve` returns exactly the same value as for the merely
ambiguous (stalled) 2×2 puzzle — there is no distinct ContradictoryState
outcome. -/
theorem claim_C2_counterexample :
    (initial_possibilities ⟨[[1], [1], [1]], [[3], [3], [1]]⟩).map
      (fun s => (cycle s).horposs.getD 0 ∅) = some (∅ : Finset Pattern) ∧
    solve ⟨[[1], [1], [1]], [[3], [3], [1]]⟩ =
      solve ⟨[[1], [1]], [[1], [1]]⟩ := by
  constructor
  · decide
  · decide

/-! ### C3 -/

/-- C3, amended: a hint with negative freedom does not fail fast: the
enumerator silently returns the empty set of Patterns, construction itself
cannot fail, and the failure only surfaces when `solve` runs — as an
out-of-range access in the intersection step (`none`, the modelled
`IndexError`), not as a MalformedHint error. -/
theorem claim_C3_thm :
    (∀ (nums : List Nat) (L : Int), nums ≠ [] → nums ≠ [0] →
      L + 1 < (nums.sum : Int) + (nums.length : Int) →
      get_numsposs nums L = ∅) ∧
    initial_possibilities ⟨[[1]], [[5]]⟩ = none ∧
    solve ⟨[[1]], [[5]]⟩ = none := by
  refine ⟨?_, by decide, by decide⟩
  intro nums L hne hne0 hlt
  match nums with
  | [] => exact absurd rfl hne
  | b :: rest =>
    have hcond : ¬(b = 0 ∧ rest = []) := by
      rintro ⟨rfl, rfl⟩
      exact hne0 rfl
    simp only [get_numsposs, hcond, if_false]
    have hz : (1 + L - ((b :: rest).sum : Int) - ((b :: rest).length : Int) + 1).toNat = 0 := by
      apply Int.toNat_of_nonpos
      omega
    rw [hz]
    simp

/-- C3, counterexample: with row hints `["5"]` and column hints `["1"]`
(length-1 lines, freedom negative) the enumerator returns the ordinary
empty set — no error of any kind at construction/enumeration time — and
the raise only happens inside `solve` (as a generic out-of-range error,
`none`), so no MalformedHint error is surfaced at construction. -/
theorem claim_C3_counterexample :
    get_numsposs [5] 1 = (∅ : Finset Pattern) ∧
    initial_possibilities ⟨[[1]], [[5]]⟩ = none ∧
    solve ⟨[[1]], [[5]]⟩ = none := by
  refine ⟨by decide, by decide, by decide⟩

/-- C3, witness: the general conjunct of `claim_C3_thm` applied at the
concrete negative-freedom hint `[5]` on a length-1 line. -/
theorem claim_C3_witness : get_numsposs [5] 1 = (∅ : Finset Pattern) :=
  claim_C3_thm.1 [5] 1 (by decide) (by decide) (by decide)

/-! ### C4 -/

/-- C4, amended: enumerating an empty block sequence returns exactly one
Pattern, but that Pattern is the empty (length-0) line, for every requested
length — it is the all-Empty line of length `L` only when `L = 0`. -/
theorem claim_C4_thm : ∀ L : Int, get_numsposs [] L = {([] : Pattern)} :=
  fun _ => rfl

/-- C4, counterexample: at length 1 the enumerator returns the length-0
Pattern, not the all-Empty line `[false]` of length 1. -/
theorem claim_C4_counterexample :
    get_numsposs [] 1 = {([] : Pattern)} ∧
    get_numsposs [] 1 ≠ {([false] : Pattern)} := by
  constructor
  · decide
  · decide

/-! ### C10 -/

/-- C10: merging the row-pass intersection with the column-pass
intersection gives the row value precedence — the merged cell is the row
value whenever the row value is known, and the column value only where the
row value is Unknown; in the 1×1 puzzle whose row intersection says Filled
and whose column intersection says Empty, seeding silently keeps the row's
Filled with no contradiction reported. -/
theorem claim_C10_thm :
    (∀ (A B : List Cell) (i : Nat) (v : Bool), A.getD i none = some v →
      (combine_known_nums A B).getD i none = some v) ∧
    (∀ (A B : List Cell) (i : Nat), i < A.length → A.getD i none = none →
      (combine_known_nums A B).getD i none = B.getD i none) ∧
    (initial_possibilities ⟨[[0]], [[1]]⟩).map (fun s => s.board) =
      some [[some true]] := by
  refine ⟨?_, ?_, by decide⟩
  · intro A B i v h
    rw [List.getD_eq_getElem?_getD] at h ⊢
    rw [combine_known_nums, List.getElem?_mapIdx]
    cases hA : A[i]? with
    | none => rw [hA] at h; simp at h
    | some a =>
      rw [hA] at h
      simp only [Option.getD_some] at h
      subst h
      simp [cellOr]
  · intro A B i hi h
    rw [List.getD_eq_getElem?_getD] at h
    rw [combine_known_nums, List.getD_eq_getElem?_getD, List.getElem?_mapIdx]
    cases hA : A[i]? with
    | none =>
      exact absurd (List.getElem?_eq_some.mpr ⟨hi, rfl⟩) (by simp [hA])
    | some a =>
      rw [hA] at h
      simp only [Option.getD_some] at h
      subst h
      simp [cellOr]

/-- C10, witness: `claim_C10_thm` applied at a concrete known row cell over
a disagreeing column cell (row wins) and at a concrete Unknown row cell
(column fills in). -/
theorem claim_C10_witness :
    (combine_known_nums [some true] [some false]).getD 0 none = some true ∧
    (combine_known_nums [none] [some false]).getD 0 none =
      ([some false] : List Cell).getD 0 none :=
  ⟨claim_C10_thm.1 [some true] [some false] 0 true (by decide),
   claim_C10_thm.2.1 [none] [some false] 0 (by decide) (by decide)⟩

/-! ### C7 -/

theorem checkPos_eq_some (c : Bool) (i : Nat) (ps : List Pattern)
    (h : ∀ r ∈ ps, i < r.length) :
    checkPos c i ps =
      some (if ∀ r ∈ ps, r.getD i false = c then some c else none) := by
  induction ps with
  | nil => simp [checkPos]
  | cons r ps ih =>
    have hi : i < r.length := h r (by simp)
    have hget : r.get? i = some (r.getD i false) := by
      rw [List.get?_eq_getElem?, List.getD_eq_getElem?_getD,
        List.getElem?_eq_getElem hi]
      rfl
    rw [checkPos, hget]
    show (if r.getD i false = c then checkPos c i ps else some none) = _
    by_cases hc : r.getD i false = c
    · rw [if_pos hc, ih (fun r2 h2 => h r2 (List.mem_cons_of_mem _ h2))]
      have hiff : (∀ r2 ∈ r :: ps, r2.getD i false = c) ↔
          (∀ r2 ∈ ps, r2.getD i false = c) := by
        constructor
        · intro hall r2 h2
          exact hall r2 (List.mem_cons_of_mem _ h2)
        · intro hall r2 h2
          rcases List.mem_cons.mp h2 with h2 | h2
          · subst h2; exact hc
          · exact hall r2 h2
      simp only [hiff]
    · rw [if_neg hc]
      have hnall : ¬(∀ r2 ∈ r :: ps, r2.getD i false = c) := by
        intro hall
        exact hc (hall r (by simp))
      rw [if_neg hnall]

theorem mapM_option_eq_some_map {α β : Type} (f : α → Option β) (g : α → β)
    (l : List α) (h : ∀ x ∈ l, f x = some (g x)) :
    l.mapM f = some (l.map g) := by
  induction l with
  | nil => rfl
  | cons x xs ih =>
    rw [List.mapM_cons, h x (by simp), ih (fun y hy => h y (List.mem_cons_of_mem _ hy))]
    rfl

/-- C7: for a non-empty collection of equal-length Patterns (in whatever
iteration order the Python set yields), `poss_intersection` succeeds and
returns a line of the common pattern length whose cells hold the common
value at every position where all Patterns agree and Unknown at every
position where two Patterns disagree; a singleton input returns exactly
that Pattern mapped to known cells.  (The embedding is purely functional,
so the input set is trivially left unchanged.) -/
theorem claim_C7_thm : ∀ (l : List Pattern) (n : Nat), l ≠ [] →
    (∀ p ∈ l, p.length = n) →
    ∃ v, poss_intersection l = some v ∧ v.length = n ∧
      (∀ i < n, ∀ b : Bool, (∀ q ∈ l, q.getD i false = b) →
        v.getD i none = some b) ∧
      (∀ i < n, (∃ q1 ∈ l, ∃ q2 ∈ l, q1.getD i false ≠ q2.getD i false) →
        v.getD i none = none) ∧
      (∀ p, l = [p] → v = p.map some) := by
  intro l n hne hlen
  match l with
  | [] => exact absurd rfl hne
  | [single] =>
    refine ⟨single.map some, rfl, ?_, ?_, ?_, ?_⟩
    · rw [List.length_map]; exact hlen single (by simp)
    · intro i hi b hall
      have hsl : single.length = n := hlen single (by simp)
      have hget : single[i]? = some single[i] := List.getElem?_eq_getElem (by omega)
      rw [List.getD_eq_getElem?_getD, List.getElem?_map, hget]
      have hb : single.getD i false = b := hall single (by simp)
      rw [List.getD_eq_getElem?_getD, hget] at hb
      simp only [Option.getD_some] at hb
      simp [hb]
    · intro i hi hdis
      rcases hdis with ⟨q1, hq1, q2, hq2, hne2⟩
      simp only [List.mem_singleton] at hq1 hq2
      subst hq1; subst hq2
      exact absurd rfl hne2
    · intro p hp
      injection hp with h1 _
      rw [h1]
  | first :: p2 :: rest =>
    have hfl : first.length = n := hlen first (by simp)
    set tail := p2 :: rest with htail
    set g : Nat × Bool → Cell := fun ic =>
      if ∀ r ∈ tail, r.getD ic.1 false = ic.2 then some ic.2 else none with hg
    have hrun : poss_intersection (first :: tail) = some (first.enum.map g) := by
      rw [poss_intersection]
      apply mapM_option_eq_some_map
      intro ic hic
      have hic2 := List.mem_enum hic
      apply checkPos_eq_some
      intro r hr
      rw [hlen r (List.mem_cons_of_mem _ hr)]
      omega
    refine ⟨first.enum.map g, hrun, ?_, ?_, ?_, ?_⟩
    · rw [List.length_map, List.enum_length]; exact hfl
    · intro i hi b hall
      have hget : first[i]? = some first[i] := List.getElem?_eq_getElem (by omega)
      rw [List.getD_eq_getElem?_getD, List.getElem?_map, List.getElem?_enum, hget]
      have hb : first.getD i false = b := hall first (by simp)
      rw [List.getD_eq_getElem?_getD, hget] at hb
      simp only [Option.getD_some] at hb
      have hcond : ∀ r ∈ tail, r.getD i false = first[i] := by
        intro r hr
        rw [hb]
        exact hall r (List.mem_cons_of_mem _ hr)
      simp only [Option.map_some', Option.getD_some]
      show (if ∀ r ∈ tail, List.getD r i false = first[i]
        then (some first[i] : Cell) else none) = some b
      rw [if_pos hcond, hb]
    · intro i hi hdis
      rcases hdis with ⟨q1, hq1, q2, hq2, hne2⟩
      have hget : first[i]? = some first[i] := List.getElem?_eq_getElem (by omega)
      rw [List.getD_eq_getElem?_getD, List.getElem?_map, List.getElem?_enum, hget]
      have hcond : ¬(∀ r ∈ tail, r.getD i false = first[i]) := by
        intro hall
        have hfix : ∀ q ∈ first :: tail, q.getD i false = first[i] := by
          intro q hq
          rcases List.mem_cons.mp hq with hq | hq
          · subst hq
            rw [List.getD_eq_getElem?_getD, hget]
            rfl
          · exact hall q hq
        exact hne2 ((hfix q1 hq1).trans (hfix q2 hq2).symm)
      simp only [Option.map_some', Option.getD_some]
      show (if ∀ r ∈ tail, List.getD r i false = first[i]
        then (some first[i] : Cell) else none) = none
      rw [if_neg hcond]
    · intro p hp
      simp at hp

/-- C7, witness: `claim_C7_thm` applied to the concrete two-pattern set
`{"10", "11"}` of common length 2. -/
theorem claim_C7_witness :
    ∃ v, poss_intersection [[true, false], [true, true]] = some v ∧
      v.length = 2 ∧
      (∀ i < 2, ∀ b : Bool,
        (∀ q ∈ [[true, false], [true, true]], q.getD i false = b) →
        v.getD i none = some b) ∧
      (∀ i < 2, (∃ q1 ∈ [[true, false], [true, true]],
        ∃ q2 ∈ [[true, false], [true, true]],
          q1.getD i false ≠ q2.getD i false) → v.getD i none = none) ∧
      (∀ p, [[true, false], [true, true]] = [p] → v = p.map some) :=
  claim_C7_thm [[true, false], [true, true]] 2 (by decide) (by decide)

/-! ### C9 -/

theorem count_none_map_some (p : Pattern) :
    (p.map some).count (none : Cell) = 0 := by
  rw [List.count_eq_zero]
  simp

theorem ruleoutRow_count_le (row : List Cell) (poss : Finset Pattern) :
    ((ruleoutRow row poss).1).count (none : Cell) ≤ row.count none := by
  unfold ruleoutRow
  split
  · simp [count_none_map_some]
  · dsimp only
    split
    · simp [count_none_map_some]
    · exact le_refl _

theorem zip_rows_count_le : ∀ (bs : List (List Cell)) (ps : List (Finset Pattern)),
    ((List.zipWith ruleoutRow bs ps).map
      (fun pr => pr.1.count (none : Cell))).sum ≤
      (bs.map (fun row => row.count (none : Cell))).sum := by
  intro bs
  induction bs with
  | nil => intro ps; simp
  | cons r t ih =>
    intro ps
    cases ps with
    | nil => simp
    | cons q qs =>
      simp only [List.zipWith_cons_cons, List.map_cons, List.sum_cons]
      exact Nat.add_le_add (ruleoutRow_count_le r q) (ih qs)

theorem remaining_ruleout_rows_le (s : PState) :
    remaining_squares (ruleout_rows s) ≤ remaining_squares s := by
  unfold remaining_squares ruleout_rows
  dsimp only
  rw [List.map_map]
  exact zip_rows_count_le s.board s.verposs

theorem count_none_set_some (row : List Cell) (x : Nat) (v : Bool) :
    (row.set x (some v)).count (none : Cell) ≤ row.count none := by
  induction row generalizing x with
  | nil => simp
  | cons a t ih =>
    cases x with
    | zero =>
      simp only [List.set, List.count_cons]
      cases a <;> simp
    | succ m =>
      simp only [List.set, List.count_cons]
      exact Nat.add_le_add (ih m) (le_refl _)

theorem sum_count_mapIdx_le (bd : List (List Cell))
    (f : Nat → List Cell → List Cell)
    (h : ∀ i row, (f i row).count (none : Cell) ≤ row.count none) :
    ((bd.mapIdx f).map (fun row => row.count (none : Cell))).sum ≤
      (bd.map (fun row => row.count (none : Cell))).sum := by
  induction bd generalizing f with
  | nil => simp
  | cons r t ih =>
    rw [List.mapIdx_cons]
    simp only [List.map_cons, List.sum_cons]
    exact Nat.add_le_add (h 0 r) (ih (fun i => f (i + 1)) (fun i row => h (i + 1) row))

theorem sum_count_setCol_le (bd : List (List Cell)) (x : Nat) (p : Pattern) :
    ((setCol bd x p).map (fun row => row.count (none : Cell))).sum ≤
      (bd.map (fun row => row.count (none : Cell))).sum := by
  unfold setCol
  exact sum_count_mapIdx_le bd _ (fun i row => count_none_set_some row x (p.getD i false))

theorem foldl_writes_count_le :
    ∀ (rs : List (Nat × (Finset Pattern × Option Pattern)))
      (bd : List (List Cell)),
    ((rs.foldl colStep bd).map (fun row => row.count (none : Cell))).sum ≤
      (bd.map (fun row => row.count (none : Cell))).sum := by
  intro rs
  induction rs with
  | nil => intro bd; exact le_refl _
  | cons r t ih =>
    intro bd
    rw [List.foldl_cons]
    refine le_trans (ih _) ?_
    cases hw : r.2.2 with
    | none => simp [colStep, hw]
    | some p => simp [colStep, hw, sum_count_setCol_le]

theorem remaining_ruleout_cols_le (s : PState) :
    remaining_squares (ruleout_cols s) ≤ remaining_squares s := by
  unfold remaining_squares ruleout_cols
  dsimp only
  exact foldl_writes_count_le _ s.board

theorem remaining_cycle_le (s : PState) :
    remaining_squares (cycle s) ≤ remaining_squares s :=
  le_trans (remaining_ruleout_cols_le (ruleout_rows s)) (remaining_ruleout_rows_le s)

/-- C9: across a solve the Unknown-cell count is non-increasing after every
row pass and after every column pass; the loop runs at most
`remaining_squares s` full row+column cycles, which is bounded by the grid
cell count; and it stops by returning the state when the Unknown count is
zero, or `None` as soon as a full cycle leaves the count unchanged. -/
theorem claim_C9_thm :
    (∀ s : PState, remaining_squares (ruleout_rows s) ≤ remaining_squares s) ∧
    (∀ s : PState, remaining_squares (ruleout_cols s) ≤ remaining_squares s) ∧
    (∀ (fuel : Nat) (s : PState), cyclesUsed fuel s ≤ remaining_squares s) ∧
    (∀ s : PState, remaining_squares s ≤ (s.board.map List.length).sum) ∧
    (∀ (fuel : Nat) (s : PState), remaining_squares s = 0 →
      solveGo (fuel + 1) s = some s) ∧
    (∀ (fuel : Nat) (s : PState), remaining_squares s ≠ 0 →
      remaining_squares (cycle s) = remaining_squares s →
      solveGo (fuel + 1) s = none) := by
  refine ⟨remaining_ruleout_rows_le, remaining_ruleout_cols_le, ?_, ?_, ?_, ?_⟩
  · intro fuel
    induction fuel with
    | zero => intro s; simp [cyclesUsed]
    | succ n ih =>
      intro s
      by_cases h0 : remaining_squares s = 0
      · simp [cyclesUsed, h0]
      · by_cases h1 : remaining_squares (cycle s) = remaining_squares s
        · simp only [cyclesUsed, h0, if_false, h1, if_true]
          omega
        · simp only [cyclesUsed, h0, if_false, h1, if_true]
          have hlt : remaining_squares (cycle s) < remaining_squares s :=
            lt_of_le_of_ne (remaining_cycle_le s) h1
          have := ih (cycle s)
          omega
  · intro s
    unfold remaining_squares
    apply List.sum_le_sum
    intro row _
    exact List.count_le_length (none : Cell) row
  · intro fuel s h0
    simp [solveGo, h0]
  · intro fuel s h0 h1
    simp [solveGo, h0, h1]

/-- C9, witness: the stopping clauses of `claim_C9_thm` applied at a
concrete solved state (one known cell) and at the concrete seeded state of
the ambiguous 2×2 puzzle (a cycle leaves its 4 Unknowns unchanged). -/
theorem claim_C9_witness :
    solveGo 1 (PState.mk [[some true]] [] []) =
      some (PState.mk [[some true]] [] []) ∧
    solveGo 1 (PState.mk [[none, none], [none, none]]
      [{[true, false], [false, true]}, {[true, false], [false, true]}]
      [{[true, false], [false, true]}, {[true, false], [false, true]}]) =
      none :=
  ⟨claim_C9_thm.2.2.2.2.1 0 _ (by decide),
   claim_C9_thm.2.2.2.2.2 0 _ (by decide) (by decide)⟩

/-! ### C8 -/

/-- Agreement of pattern `p` with the known cells of a line, as a logical
characterisation of the boolean `rowAgrees`. -/
theorem rowAgrees_iff (p : Pattern) (cells : List Cell) :
    rowAgrees p cells = true ↔
      ∀ i v, cells.getD i none = some v → p.getD i false = v := by
  unfold rowAgrees
  rw [List.all_eq_true]
  constructor
  · intro h i v hc
    rw [List.getD_eq_getElem?_getD] at hc
    cases hg : cells[i]? with
    | none => rw [hg] at hc; simp at hc
    | some c =>
      rw [hg] at hc
      simp only [Option.getD_some] at hc
      subst hc
      have henum2 : cells.enum[i]? = some (i, (some v : Cell)) := by
        rw [List.getElem?_enum, hg]
        rfl
      have h2 := h _ (List.getElem?_mem henum2)
      have h3 : (p.getD i false == v) = true := h2
      exact eq_of_beq h3
  · intro h ic hmem
    obtain ⟨i, c⟩ := ic
    obtain ⟨hi, hc⟩ := List.mem_enum hmem
    cases c with
    | none => rfl
    | some v =>
      show (p.getD i false == v) = true
      rw [beq_iff_eq]
      apply h i v
      rw [List.getD_eq_getElem?_getD, List.getElem?_eq_getElem hi, ← hc]
      rfl

theorem rowAgrees_self_map_some (p : Pattern) :
    rowAgrees p (p.map some) = true := by
  rw [rowAgrees_iff]
  intro i v hc
  rw [List.getD_eq_getElem?_getD, List.getElem?_map] at hc
  cases hg : p[i]? with
  | none => rw [hg] at hc; simp at hc
  | some a =>
    rw [hg] at hc
    simp only [Option.map_some', Option.getD_some, Option.some.injEq] at hc
    rw [List.getD_eq_getElem?_getD, hg]
    simpa using hc

theorem ruleoutRow_snd_subset (row : List Cell) (poss : Finset Pattern) :
    (ruleoutRow row poss).2 ⊆ poss := by
  unfold ruleoutRow
  split
  · exact Finset.Subset.refl _
  · dsimp only
    split
    · exact Finset.filter_subset _ _
    · exact Finset.filter_subset _ _

theorem ruleoutCol_fst_subset (col : List Cell) (poss : Finset Pattern) :
    (ruleoutCol col poss).1 ⊆ poss := by
  unfold ruleoutCol
  split
  · exact Finset.Subset.refl _
  · dsimp only
    split
    · exact Finset.filter_subset _ _
    · exact Finset.filter_subset _ _

theorem verposs_getD_subset :
    ∀ (bs : List (List Cell)) (ps : List (Finset Pattern)) (y : Nat),
    ((List.zipWith ruleoutRow bs ps).map Prod.snd).getD y ∅ ⊆ ps.getD y ∅ := by
  intro bs
  induction bs with
  | nil => intro ps y; simp
  | cons r t ih =>
    intro ps y
    cases ps with
    | nil => simp
    | cons q qs =>
      rw [List.zipWith_cons_cons, List.map_cons]
      cases y with
      | zero =>
        rw [List.getD_cons_zero, List.getD_cons_zero]
        exact ruleoutRow_snd_subset r q
      | succ m =>
        rw [List.getD_cons_succ, List.getD_cons_succ]
        exact ih qs m

theorem ruleout_rows_verposs_subset (s : PState) (y : Nat) :
    (ruleout_rows s).verposs.getD y ∅ ⊆ s.verposs.getD y ∅ := by
  unfold ruleout_rows
  exact verposs_getD_subset s.board s.verposs y

theorem mapIdx_fst_getD_subset :
    ∀ (l : List (Finset Pattern))
      (f : Nat → Finset Pattern → Finset Pattern × Option Pattern),
    (∀ i q, (f i q).1 ⊆ q) → ∀ x,
    ((l.mapIdx f).map Prod.fst).getD x ∅ ⊆ l.getD x ∅ := by
  intro l
  induction l with
  | nil => intro f h x; simp
  | cons q t ih =>
    intro f h x
    rw [List.mapIdx_cons, List.map_cons]
    cases x with
    | zero =>
      rw [List.getD_cons_zero, List.getD_cons_zero]
      exact h 0 q
    | succ m =>
      rw [List.getD_cons_succ, List.getD_cons_succ]
      exact ih (fun i => f (i + 1)) (fun i q2 => h (i + 1) q2) m

theorem ruleout_cols_horposs_subset (s : PState) (x : Nat) :
    (ruleout_cols s).horposs.getD x ∅ ⊆ s.horposs.getD x ∅ := by
  unfold ruleout_cols
  exact mapIdx_fst_getD_subset s.horposs _
    (fun i q => ruleoutCol_fst_subset (getCol s.board i) q) x

theorem cycle_iterate_subset (s : PState) : ∀ n : Nat,
    (∀ y, (cycle^[n] s).verposs.getD y ∅ ⊆ s.verposs.getD y ∅) ∧
    (∀ x, (cycle^[n] s).horposs.getD x ∅ ⊆ s.horposs.getD x ∅) := by
  intro n
  induction n generalizing s with
  | zero => simp
  | succ m ih =>
    rw [Function.iterate_succ_apply]
    have hv : (cycle s).verposs = (ruleout_rows s).verposs := rfl
    constructor
    · intro y
      refine Finset.Subset.trans ((ih (cycle s)).1 y) ?_
      rw [hv]
      exact ruleout_rows_verposs_subset s y
    · intro x
      refine Finset.Subset.trans ((ih (cycle s)).2 x) ?_
      have hh : (ruleout_rows s).horposs = s.horposs := rfl
      calc (cycle s).horposs.getD x ∅
          ⊆ (ruleout_rows s).horposs.getD x ∅ :=
            ruleout_cols_horposs_subset (ruleout_rows s) x
        _ = s.horposs.getD x ∅ := by rw [hh]

theorem ruleoutRow_agrees (row : List Cell) (poss : Finset Pattern)
    (p : Pattern) (hp : p ∈ (ruleoutRow row poss).2) :
    rowAgrees p (ruleoutRow row poss).1 = true := by
  unfold ruleoutRow at hp ⊢
  by_cases h1 : poss.card = 1
  · rw [if_pos h1] at hp ⊢
    rw [mem_card_one h1 hp]
    exact rowAgrees_self_map_some _
  · rw [if_neg h1] at hp ⊢
    dsimp only at hp ⊢
    by_cases h2 : (pruneLine poss row).card = 1
    · rw [if_pos h2] at hp ⊢
      rw [mem_card_one h2 hp]
      exact rowAgrees_self_map_some _
    · rw [if_neg h2] at hp ⊢
      exact (Finset.mem_filter.mp hp).2

theorem ruleout_rows_agrees_aux :
    ∀ (bs : List (List Cell)) (ps : List (Finset Pattern)) (y : Nat)
      (p : Pattern),
    p ∈ ((List.zipWith ruleoutRow bs ps).map Prod.snd).getD y ∅ →
    rowAgrees p (((List.zipWith ruleoutRow bs ps).map Prod.fst).getD y []) =
      true := by
  intro bs
  induction bs with
  | nil => intro ps y p hp; simp at hp
  | cons r t ih =>
    intro ps y p hp
    cases ps with
    | nil => simp at hp
    | cons q qs =>
      rw [List.zipWith_cons_cons, List.map_cons] at hp
      rw [List.zipWith_cons_cons, List.map_cons]
      cases y with
      | zero =>
        rw [List.getD_cons_zero] at hp
        rw [List.getD_cons_zero]
        exact ruleoutRow_agrees r q p hp
      | succ m =>
        rw [List.getD_cons_succ] at hp
        rw [List.getD_cons_succ]
        exact ih qs m p hp

/-- After a row pass, every pattern remaining in a row's CandidateSet
agrees with that row's (possibly just rewritten) cells. -/
theorem ruleout_rows_agrees (s : PState) (y : Nat) (p : Pattern)
    (hp : p ∈ (ruleout_rows s).verposs.getD y ∅) :
    rowAgrees p ((ruleout_rows s).board.getD y []) = true := by
  unfold ruleout_rows at hp ⊢
  exact ruleout_rows_agrees_aux s.board s.verposs y p hp

/-- The cell of the grid at row `i`, column `x` (Unknown when out of
range). -/
def cellAt (bd : List (List Cell)) (i x : Nat) : Cell :=
  (bd.getD i []).getD x none

theorem tail_getD (w : Pattern) (i : Nat) :
    w.tail.getD i false = w.getD (i + 1) false := by
  cases w <;> rfl

theorem setCol_nil (x : Nat) (w : Pattern) : setCol [] x w = [] := rfl

theorem setCol_cons (r : List Cell) (t : List (List Cell)) (x : Nat)
    (w : Pattern) :
    setCol (r :: t) x w = r.set x (some (w.getD 0 false)) :: setCol t x w.tail := by
  unfold setCol
  rw [List.mapIdx_cons]
  congr 1
  have hfn : (fun i (row : List Cell) => row.set x (some (w.getD (i + 1) false))) =
      (fun i (row : List Cell) => row.set x (some (w.tail.getD i false))) := by
    funext i row
    rw [tail_getD]
  rw [hfn]

theorem cellAt_nil (i x : Nat) : cellAt [] i x = none := rfl

theorem cellAt_cons_zero (r : List Cell) (t : List (List Cell)) (x : Nat) :
    cellAt (r :: t) 0 x = r.getD x none := rfl

theorem cellAt_cons_succ (r : List Cell) (t : List (List Cell)) (i x : Nat) :
    cellAt (r :: t) (i + 1) x = cellAt t i x := rfl

theorem row_set_getD_ne (row : List Cell) (j x : Nat) (a : Cell)
    (h : j ≠ x) : (row.set j a).getD x none = row.getD x none := by
  rw [List.getD_eq_getElem?_getD, List.getElem?_set_ne h,
    ← List.getD_eq_getElem?_getD]

theorem getCol_getD (bd : List (List Cell)) (x : Nat) : ∀ i : Nat,
    (getCol bd x).getD i none = cellAt bd i x := by
  induction bd with
  | nil => intro i; cases i <;> rfl
  | cons r t ih =>
    intro i
    cases i with
    | zero => rfl
    | succ m => exact ih m

theorem setCol_cellAt_ne (bd : List (List Cell)) (x w_x : Nat) (w : Pattern)
    (i : Nat) (hne : x ≠ w_x) :
    cellAt (setCol bd w_x w) i x = cellAt bd i x := by
  induction bd generalizing i w with
  | nil => rw [setCol_nil]
  | cons r t ih =>
    rw [setCol_cons]
    cases i with
    | zero =>
      rw [cellAt_cons_zero, cellAt_cons_zero]
      exact row_set_getD_ne r w_x x _ (Ne.symm hne)
    | succ m =>
      rw [cellAt_cons_succ, cellAt_cons_succ]
      exact ih w.tail m

theorem setCol_cellAt_self (bd : List (List Cell)) (x : Nat) (w : Pattern)
    (i : Nat) :
    cellAt (setCol bd x w) i x = none ∨
    cellAt (setCol bd x w) i x = some (w.getD i false) := by
  induction bd generalizing i w with
  | nil => left; rw [setCol_nil]; exact cellAt_nil i x
  | cons r t ih =>
    rw [setCol_cons]
    cases i with
    | zero =>
      rw [cellAt_cons_zero]
      rw [List.getD_eq_getElem?_getD, List.getElem?_set]
      by_cases hx : x < r.length
      · right; simp [hx]
      · left; simp [hx]
    | succ m =>
      rw [cellAt_cons_succ]
      rcases ih w.tail m with h | h
      · left; exact h
      · right; rw [h, tail_getD]

theorem foldl_colStep_cellAt_lt :
    ∀ (rs : List (Finset Pattern × Option Pattern)) (k : Nat)
      (bd : List (List Cell)) (x i : Nat), x < k →
    cellAt (List.foldl colStep bd (List.enumFrom k rs)) i x = cellAt bd i x := by
  intro rs
  induction rs with
  | nil => intro k bd x i _; rfl
  | cons r t ih =>
    intro k bd x i hx
    rw [List.enumFrom_cons, List.foldl_cons]
    rw [ih (k + 1) (colStep bd (k, r)) x i (by omega)]
    unfold colStep
    cases hw : r.2 with
    | none => rfl
    | some w => exact setCol_cellAt_ne bd x k w i (by omega)

theorem foldl_colStep_cellAt_write :
    ∀ (rs : List (Finset Pattern × Option Pattern)) (k : Nat)
      (bd : List (List Cell)) (j : Nat) (r : Finset Pattern × Option Pattern)
      (w : Pattern), rs[j]? = some r → r.2 = some w →
    ∀ i v, cellAt (List.foldl colStep bd (List.enumFrom k rs)) i (k + j) = some v →
      v = w.getD i false := by
  intro rs
  induction rs with
  | nil => intro k bd j r w hj; simp at hj
  | cons r0 t ih =>
    intro k bd j r w hj hw i v hcell
    rw [List.enumFrom_cons, List.foldl_cons] at hcell
    cases j with
    | zero =>
      rw [List.getElem?_cons_zero] at hj
      injection hj with hj
      subst hj
      have hcell2 : cellAt (List.foldl colStep (colStep bd (k, r0))
          (List.enumFrom (k + 1) t)) i k = some v := hcell
      rw [foldl_colStep_cellAt_lt t (k + 1) (colStep bd (k, r0)) k i
        (Nat.lt_succ_self k)] at hcell2
      have hstep : colStep bd (k, r0) = setCol bd k w := by
        unfold colStep
        rw [hw]
      rw [hstep] at hcell2
      rcases setCol_cellAt_self bd k w i with h | h
      · rw [h] at hcell2
        exact absurd hcell2 (by simp)
      · rw [h] at hcell2
        injection hcell2 with h2
        exact h2.symm
    | succ m =>
      rw [List.getElem?_cons_succ] at hj
      have harith : k + (m + 1) = (k + 1) + m := by omega
      rw [harith] at hcell
      exact ih (k + 1) (colStep bd (k, r0)) m r w hj hw i v hcell

theorem foldl_colStep_cellAt_nowrite :
    ∀ (rs : List (Finset Pattern × Option Pattern)) (k : Nat)
      (bd : List (List Cell)) (x : Nat),
    (∀ j r, rs[j]? = some r → k + j = x → r.2 = none) →
    ∀ i, cellAt (List.foldl colStep bd (List.enumFrom k rs)) i x = cellAt bd i x := by
  intro rs
  induction rs with
  | nil => intro k bd x _ i; rfl
  | cons r0 t ih =>
    intro k bd x h i
    rw [List.enumFrom_cons, List.foldl_cons]
    rw [ih (k + 1) (colStep bd (k, r0)) x
      (fun j r hj hx => h (j + 1) r (by simpa using hj) (by omega)) i]
    by_cases hk : k = x
    · have h0 : r0.2 = none := h 0 r0 (by simp) (by omega)
      unfold colStep
      rw [h0]
    · unfold colStep
      cases hw : r0.2 with
      | none => rfl
      | some w => exact setCol_cellAt_ne bd x k w i (by omega)

/-- After a column pass, every pattern remaining in a column's CandidateSet
agrees with that column's (possibly just rewritten) cells. -/
theorem ruleout_cols_agrees (s : PState) (x : Nat) (p : Pattern)
    (hp : p ∈ (ruleout_cols s).horposs.getD x ∅) :
    rowAgrees p (getCol (ruleout_cols s).board x) = true := by
  unfold ruleout_cols at hp ⊢
  dsimp only at hp ⊢
  set results := s.horposs.mapIdx
    (fun x2 poss => ruleoutCol (getCol s.board x2) poss) with hresults
  by_cases hx : x < results.length
  case neg =>
    rw [List.getD_eq_default] at hp
    · exact absurd hp (Finset.not_mem_empty p)
    · rw [List.length_map]; omega
  case pos =>
    have hlen2 : x < s.horposs.length := by
      rw [hresults, List.length_mapIdx] at hx; exact hx
    have hq : s.horposs[x]? = some s.horposs[x] := List.getElem?_eq_getElem hlen2
    have hres : results[x]? =
        some (ruleoutCol (getCol s.board x) s.horposs[x]) := by
      rw [hresults, List.getElem?_mapIdx, hq]
      rfl
    have hp2 : p ∈ (ruleoutCol (getCol s.board x) s.horposs[x]).1 := by
      rw [List.getD_eq_getElem?_getD, List.getElem?_map, hres] at hp
      simpa using hp
    have henum : results.enum = List.enumFrom 0 results := List.enum_eq_enumFrom
    rw [henum]
    set q := s.horposs[x] with hqdef
    set col := getCol s.board x with hcol
    unfold ruleoutCol at hp2 hres
    by_cases h1 : q.card = 1
    · rw [if_pos h1] at hp2 hres
      have hpw : p = singletonPat q := mem_card_one h1 hp2
      rw [rowAgrees_iff]
      intro i v hcell
      rw [getCol_getD] at hcell
      have := foldl_colStep_cellAt_write results 0 s.board x _ (singletonPat q)
        hres rfl i v (by simpa using hcell)
      rw [hpw, this]
    · rw [if_neg h1] at hp2 hres
      dsimp only at hp2 hres
      by_cases h2 : (pruneLine q col).card = 1
      · rw [if_pos h2] at hp2 hres
        have hpw : p = singletonPat (pruneLine q col) := mem_card_one h2 hp2
        rw [rowAgrees_iff]
        intro i v hcell
        rw [getCol_getD] at hcell
        have := foldl_colStep_cellAt_write results 0 s.board x _
          (singletonPat (pruneLine q col)) hres rfl i v (by simpa using hcell)
        rw [hpw, this]
      · rw [if_neg h2] at hp2 hres
        have hagree : rowAgrees p col = true := (Finset.mem_filter.mp hp2).2
        rw [rowAgrees_iff]
        intro i v hcell
        rw [getCol_getD] at hcell
        have hnw : ∀ j r, results[j]? = some r → 0 + j = x → r.2 = none := by
          intro j r hj hjx
          have hjx2 : j = x := by omega
          subst hjx2
          rw [hres] at hj
          cases hj
          rfl
        rw [foldl_colStep_cellAt_nowrite results 0 s.board x hnw i] at hcell
        rw [rowAgrees_iff] at hagree
        apply hagree i v
        rw [hcol, getCol_getD]
        exact hcell

/-- C8, amended: every pruning pass only ever removes Patterns from a
line's CandidateSet (a removed Pattern never reappears across any number
of later cycles); and after a row (resp. column) pass, every Pattern
remaining in a row's (resp. column's) CandidateSet agrees with every
currently-known Cell of that line.  Sets of the axis that was *not* just
pruned may temporarily disagree with freshly written cells — that is the
progress the next pass exploits. -/
theorem claim_C8_thm :
    (∀ (s : PState) (y : Nat),
      (ruleout_rows s).verposs.getD y ∅ ⊆ s.verposs.getD y ∅) ∧
    (∀ (s : PState) (x : Nat),
      (ruleout_cols s).horposs.getD x ∅ ⊆ s.horposs.getD x ∅) ∧
    (∀ (s : PState) (n : Nat),
      (∀ y, (cycle^[n] s).verposs.getD y ∅ ⊆ s.verposs.getD y ∅) ∧
      (∀ x, (cycle^[n] s).horposs.getD x ∅ ⊆ s.horposs.getD x ∅)) ∧
    (∀ (s : PState) (y : Nat) (p : Pattern),
      p ∈ (ruleout_rows s).verposs.getD y ∅ →
      rowAgrees p ((ruleout_rows s).board.getD y []) = true) ∧
    (∀ (s : PState) (x : Nat) (p : Pattern),
      p ∈ (ruleout_cols s).horposs.getD x ∅ →
      rowAgrees p (getCol (ruleout_cols s).board x) = true) :=
  ⟨ruleout_rows_verposs_subset, ruleout_cols_horposs_subset,
   fun s n => cycle_iterate_subset s n, ruleout_rows_agrees, ruleout_cols_agrees⟩

/-- C8, witness: the agreement clauses of `claim_C8_thm` applied at the
concrete seeded state of the contradictory 3×3 puzzle. -/
theorem claim_C8_witness :
    rowAgrees [true, true, true]
      ((ruleout_rows ⟨[[some true, some true, some true],
          [some true, some true, some true], [none, none, none]],
        [{[true, true, true]}, {[true, true, true]},
          {[true, false, false], [false, true, false], [false, false, true]}],
        [{[true, false, false], [false, true, false], [false, false, true]},
          {[true, false, false], [false, true, false], [false, false, true]},
          {[true, false, false], [false, true, false],
            [false, false, true]}]⟩).board.getD 0 []) = true ∧
    rowAgrees [true, false, false]
      (getCol (ruleout_cols ⟨[[some true, some true, some true],
          [none, none, none], [none, none, none]],
        [{[true, true, true]}],
        [{[true, false, false], [false, true, false], [false, false, true]},
          {[true, false, false], [false, true, false], [false, false, true]},
          {[true, false, false], [false, true, false],
            [false, false, true]}]⟩).board 0) = true :=
  ⟨claim_C8_thm.2.2.2.1 _ 0 [true, true, true] (by decide),
   claim_C8_thm.2.2.2.2 _ 0 [true, false, false] (by decide)⟩

/-- C8, counterexample: after the first row pass on the seeded
contradictory 3×3 puzzle, column 0's CandidateSet still contains the
pattern "010" although column 0's known top cell is Filled — so "after each
pruning pass **every** line's CandidateSet agrees with that line's known
cells" is false for the axis that was not just pruned. -/
theorem claim_C8_counterexample :
    initial_possibilities ⟨[[1], [1], [1]], [[3], [3], [1]]⟩ =
      some ⟨[[some true, some true, some true],
          [some true, some true, some true], [none, none, none]],
        [{[true, true, true]}, {[true, true, true]},
          {[true, false, false], [false, true, false], [false, false, true]}],
        [{[true, false, false], [false, true, false], [false, false, true]},
          {[true, false, false], [false, true, false], [false, false, true]},
          {[true, false, false], [false, true, false],
            [false, false, true]}]⟩ ∧
    [false, true, false] ∈ (ruleout_rows ⟨[[some true, some true, some true],
          [some true, some true, some true], [none, none, none]],
        [{[true, true, true]}, {[true, true, true]},
          {[true, false, false], [false, true, false], [false, false, true]}],
        [{[true, false, false], [false, true, false], [false, false, true]},
          {[true, false, false], [false, true, false], [false, false, true]},
          {[true, false, false], [false, true, false],
            [false, false, true]}]⟩).horposs.getD 0 ∅ ∧
    rowAgrees [false, true, false]
      (getCol (ruleout_rows ⟨[[some true, some true, some true],
          [some true, some true, some true], [none, none, none]],
        [{[true, true, true]}, {[true, true, true]},
          {[true, false, false], [false, true, false], [false, false, true]}],
        [{[true, false, false], [false, true, false], [false, false, true]},
          {[true, false, false], [false, true, false], [false, false, true]},
          {[true, false, false], [false, true, false],
            [false, false, true]}]⟩).board 0) = false := by
  refine ⟨by decide, by decide, by decide⟩

/-! ### C5 -/

/-- Accumulator-based scan for maximal Filled runs: `n` is the length of
the Filled run currently in progress. -/
def runsGo : List Bool → Nat → List Nat
  | [], 0 => []
  | [], n + 1 => [n + 1]
  | true :: t, n => runsGo t (n + 1)
  | false :: t, 0 => runsGo t 0
  | false :: t, n + 1 => (n + 1) :: runsGo t 0

/-- The lengths of the maximal Filled runs of a pattern, in order. -/
def runs (p : Pattern) : List Nat := runsGo p 0

theorem runsGo_replicate_false_zero : ∀ m : Nat,
    runsGo (List.replicate m false) 0 = [] := by
  intro m
  induction m with
  | zero => rfl
  | succ k ih =>
    rw [List.replicate_succ]
    exact ih

theorem runsGo_replicate_false_succ (m n : Nat) :
    runsGo (List.replicate m false) (n + 1) = [n + 1] := by
  cases m with
  | zero => rfl
  | succ k =>
    rw [List.replicate_succ]
    show (n + 1) :: runsGo (List.replicate k false) 0 = [n + 1]
    rw [runsGo_replicate_false_zero]

theorem runsGo_replicate_true (b : Nat) (t : List Bool) : ∀ n : Nat,
    runsGo (List.replicate b true ++ t) n = runsGo t (n + b) := by
  induction b with
  | zero => intro n; rfl
  | succ k ih =>
    intro n
    rw [List.replicate_succ, List.cons_append]
    show runsGo (List.replicate k true ++ t) (n + 1) = runsGo t (n + (k + 1))
    rw [ih (n + 1)]
    have h : n + 1 + k = n + (k + 1) := by omega
    rw [h]

theorem runsGo_leading_falses : ∀ (i : Nat) (t : List Bool),
    runsGo (List.replicate i false ++ t) 0 = runsGo t 0 := by
  intro i
  induction i with
  | zero => intro t; rfl
  | succ k ih =>
    intro t
    rw [List.replicate_succ, List.cons_append]
    exact ih t

theorem runs_shape_block_sep (i b : Nat) (hb : 0 < b) (q : List Bool) :
    runs (List.replicate i false ++ List.replicate b true ++ false :: q) =
      b :: runs q := by
  unfold runs
  rw [List.append_assoc, runsGo_leading_falses, runsGo_replicate_true]
  have h0 : 0 + b = b := by omega
  rw [h0]
  cases b with
  | zero => omega
  | succ m => rfl

theorem runs_shape_last (i b m : Nat) (hb : 0 < b) :
    runs (List.replicate i false ++ List.replicate b true ++
      List.replicate m false) = [b] := by
  unfold runs
  rw [List.append_assoc, runsGo_leading_falses, runsGo_replicate_true]
  have h0 : 0 + b = b := by omega
  rw [h0]
  cases b with
  | zero => omega
  | succ k => exact runsGo_replicate_false_succ m k

theorem get_numsposs_shape : ∀ (nums : List Nat) (L : Int) (p : Pattern),
    nums ≠ [] → (∀ b ∈ nums, 0 < b) → p ∈ get_numsposs nums L →
    runs p = nums ∧ (p.length : Int) = L := by
  intro nums
  induction nums with
  | nil => intro L p h; exact absurd rfl h
  | cons b rest ih =>
    intro L p _ hpos hp
    have hb : 0 < b := hpos b (by simp)
    have hcond : ¬(b = 0 ∧ rest = []) := by
      rintro ⟨rfl, -⟩
      omega
    rw [get_numsposs, if_neg hcond] at hp
    rw [Finset.mem_biUnion] at hp
    obtain ⟨i, hi, hp⟩ := hp
    rw [Finset.mem_range] at hi
    by_cases hrest : rest = []
    · subst hrest
      rw [if_pos rfl, Finset.mem_singleton] at hp
      subst hp
      simp only [List.sum_cons, List.sum_nil, List.length_cons,
        List.length_nil, Nat.add_zero, Nat.zero_add] at hi
      constructor
      · exact runs_shape_last i b _ hb
      · simp only [List.length_append, List.length_replicate]
        push_cast
        omega
    · rw [if_neg hrest, Finset.mem_image] at hp
      obtain ⟨q, hq, hp⟩ := hp
      obtain ⟨hruns, hlen⟩ := ih (L - ((i : Int) + (b : Int) + 1)) q hrest
        (fun b2 h2 => hpos b2 (by simp [h2])) hq
      subst hp
      constructor
      · rw [runs_shape_block_sep i b hb q, hruns]
      · simp only [List.length_append, List.length_replicate, List.length_cons]
        push_cast
        omega

/-- C5, amended: for every *nonempty* block sequence of *positive* block
lengths, every Pattern produced by the Enumerator has exactly
`blocks.length` maximal Filled runs, in order, with run lengths matching
`blocks` (hence consecutive runs separated by at least one Empty), and
total length exactly `length`.  The special accepted hints `[]` and `[0]`
are the exceptions: `[]` yields the empty length-0 Pattern and `[0]` yields
the all-Empty Pattern with zero runs. -/
theorem claim_C5_thm : ∀ (blocks : List Nat) (L : Nat) (p : Pattern),
    blocks ≠ [] → (∀ b ∈ blocks, 0 < b) →
    p ∈ get_numsposs blocks (L : Int) →
    runs p = blocks ∧ p.length = L := by
  intro blocks L p hne hpos hp
  obtain ⟨hruns, hlen⟩ := get_numsposs_shape blocks (L : Int) p hne hpos hp
  exact ⟨hruns, by exact_mod_cast hlen⟩

/-- C5, witness: `claim_C5_thm` at the concrete pattern "010" produced for
the hint `[1]` on a length-3 line. -/
theorem claim_C5_witness :
    runs [false, true, false] = [1] ∧
    ([false, true, false] : Pattern).length = 3 :=
  claim_C5_thm [1] 3 [false, true, false] (by decide) (by decide) (by decide)

/-- C5, counterexample: the Enumerator accepts the hint `[0]` (one block of
length 0), but its Pattern, the all-Empty line, has zero maximal Filled
runs rather than `len(blocks) = 1` of them. -/
theorem claim_C5_counterexample :
    ([false, false] ∈ get_numsposs [0] 2) ∧
    runs [false, false] = [] ∧ ([] : List Nat) ≠ [0] := by
  refine ⟨by decide, by decide, by decide⟩

/-! ### C6 -/

theorem sum_choose_hockey (K : Nat) : ∀ d : Nat,
    ∑ i ∈ Finset.range (d + 1), Nat.choose (i + K) K =
      Nat.choose (d + 1 + K) (K + 1) := by
  intro d
  induction d with
  | zero =>
    rw [Finset.sum_range_one]
    rw [Nat.zero_add, Nat.choose_self]
    have h1 : 0 + 1 + K = K + 1 := by omega
    rw [h1, Nat.choose_self]
  | succ m ih =>
    rw [Finset.sum_range_succ, ih]
    have h1 : m + 1 + 1 + K = (m + 1 + K) + 1 := by omega
    rw [h1, Nat.choose_succ_succ, Nat.succ_eq_add_one]
    omega

theorem prefix_get_true (i b : Nat) (hb : 0 < b) (tail : List Bool) :
    (List.replicate i false ++ (List.replicate b true ++ tail))[i]? =
      some true := by
  rw [List.getElem?_append_right (by simp)]
  simp only [List.length_replicate, Nat.sub_self]
  rw [List.getElem?_append_left (by simpa using hb)]
  rw [List.getElem?_replicate]
  simp [hb]

theorem prefix_get_false (i b : Nat) (tail : List Bool) (j : Nat)
    (hj : j < i) :
    (List.replicate i false ++ (List.replicate b true ++ tail))[j]? =
      some false := by
  rw [List.getElem?_append_left (by simpa using hj)]
  rw [List.getElem?_replicate]
  simp [hj]

theorem branch_mem_get (b : Nat) (hb : 0 < b) (rest : List Nat) (L : Int)
    (i : Nat) (p : Pattern)
    (hp : p ∈ (if rest = [] then
        ({List.replicate i false ++ List.replicate b true ++
          List.replicate (L - ((i : Int) + (b : Int))).toNat false} :
            Finset Pattern)
      else
        (get_numsposs rest (L - ((i : Int) + (b : Int) + 1))).image
          (fun endp => List.replicate i false ++ List.replicate b true ++
            false :: endp))) :
    p[i]? = some true ∧ ∀ j < i, p[j]? = some false := by
  by_cases hrest : rest = []
  · rw [if_pos hrest, Finset.mem_singleton] at hp
    subst hp
    constructor
    · rw [List.append_assoc]
      exact prefix_get_true i b hb _
    · intro j hj
      rw [List.append_assoc]
      exact prefix_get_false i b _ j hj
  · rw [if_neg hrest, Finset.mem_image] at hp
    obtain ⟨q, _, hp⟩ := hp
    subst hp
    constructor
    · rw [List.append_assoc]
      exact prefix_get_true i b hb _
    · intro j hj
      rw [List.append_assoc]
      exact prefix_get_false i b _ j hj

theorem disjoint_of_firstTrue (F : Nat → Finset Pattern)
    (h : ∀ i p, p ∈ F i → p[i]? = some true ∧ ∀ j < i, p[j]? = some false) :
    ∀ x y : Nat, x ≠ y → Disjoint (F x) (F y) := by
  intro x y hxy
  rw [Finset.disjoint_left]
  intro p hpx hpy
  rcases Nat.lt_or_ge x y with hlt | hge
  · have h1 := (h x p hpx).1
    have h2 := (h y p hpy).2 x hlt
    rw [h1] at h2
    exact absurd h2 (by simp)
  · have hlt2 : y < x := by omega
    have h1 := (h y p hpy).1
    have h2 := (h x p hpx).2 y hlt2
    rw [h1] at h2
    exact absurd h2 (by simp)

theorem get_numsposs_card : ∀ (nums : List Nat) (L : Int),
    nums ≠ [] → (∀ b ∈ nums, 0 < b) →
    0 ≤ 1 + L - (nums.sum : Int) - (nums.length : Int) →
    (get_numsposs nums L).card =
      Nat.choose ((1 + L - (nums.sum : Int) - (nums.length : Int)).toNat +
        nums.length) nums.length := by
  intro nums
  induction nums with
  | nil => intro L h; exact absurd rfl h
  | cons b rest ih =>
    intro L _ hpos hdeg
    have hb : 0 < b := hpos b (by simp)
    have hcond : ¬(b = 0 ∧ rest = []) := by
      rintro ⟨rfl, -⟩
      omega
    simp only [get_numsposs]
    rw [if_neg hcond]
    have hn : (1 + L - ((b :: rest).sum : Int) - ((b :: rest).length : Int) + 1).toNat =
        (1 + L - ((b :: rest).sum : Int) - ((b :: rest).length : Int)).toNat + 1 := by
      omega
    rw [hn]
    set n := (1 + L - ((b :: rest).sum : Int) - ((b :: rest).length : Int)).toNat
      with hndef
    have hdisj := disjoint_of_firstTrue _
      (fun i p hp => branch_mem_get b hb rest L i p hp)
    rw [Finset.card_biUnion (fun x _ y _ hxy => hdisj x y hxy)]
    have hs : ((b :: rest).sum : Int) = (b : Int) + (rest.sum : Int) := by
      rw [List.sum_cons]
      push_cast
      ring
    have hl : ((b :: rest).length : Int) = (rest.length : Int) + 1 := by
      rw [List.length_cons]
      push_cast
      ring
    have hcard : ∀ u ∈ Finset.range (n + 1),
        (if rest = [] then
            ({List.replicate u false ++ List.replicate b true ++
              List.replicate (L - ((u : Int) + (b : Int))).toNat false} :
                Finset Pattern)
          else
            (get_numsposs rest (L - ((u : Int) + (b : Int) + 1))).image
              (fun endp => List.replicate u false ++ List.replicate b true ++
                false :: endp)).card =
          Nat.choose ((n - u) + rest.length) rest.length := by
      intro u hu
      rw [Finset.mem_range] at hu
      by_cases hrest : rest = []
      · subst hrest
        rw [if_pos rfl, Finset.card_singleton]
        simp
      · rw [if_neg hrest]
        have hinj : Function.Injective (fun endp : Pattern =>
            List.replicate u false ++ List.replicate b true ++ false :: endp) := by
          intro a1 a2 h
          have h2 := @List.append_cancel_left Bool
            (List.replicate u false ++ List.replicate b true)
            (false :: a1) (false :: a2) h
          injection h2 with h3 h4
        rw [Finset.card_image_of_injective _ hinj]
        have hposr : ∀ b2 ∈ rest, 0 < b2 :=
          fun b2 h2 => hpos b2 (List.mem_cons_of_mem _ h2)
        have hdegr : 0 ≤ 1 + (L - ((u : Int) + (b : Int) + 1)) -
            (rest.sum : Int) - (rest.length : Int) := by
          omega
        rw [ih (L - ((u : Int) + (b : Int) + 1)) hrest hposr hdegr]
        congr 1
        omega
    rw [Finset.sum_congr rfl hcard]
    have hre : ∀ u ∈ Finset.range (n + 1),
        Nat.choose ((n - u) + rest.length) rest.length =
        Nat.choose ((n + 1 - 1 - u) + rest.length) rest.length := by
      intro u _
      rfl
    rw [Finset.sum_congr rfl hre]
    rw [Finset.sum_range_reflect
      (fun j => Nat.choose (j + rest.length) rest.length) (n + 1)]
    rw [sum_choose_hockey]
    simp only [List.length_cons]
    congr 1
    omega

/-- C6: for every nonempty sequence of positive block lengths with
non-negative freedom `f = 1 + length − sum(blocks) − len(blocks)`, the
Enumerator produces exactly `C(f + len(blocks), len(blocks))` Patterns;
the boundary hints `[]` and `[0]` each yield exactly one Pattern. -/
theorem claim_C6_thm :
    (∀ (blocks : List Nat) (L : Nat), blocks ≠ [] → (∀ b ∈ blocks, 0 < b) →
      blocks.sum + blocks.length ≤ L + 1 →
      (get_numsposs blocks (L : Int)).card =
        Nat.choose ((L + 1 - blocks.sum - blocks.length) + blocks.length)
          blocks.length) ∧
    (∀ L : Nat, (get_numsposs [] (L : Int)).card = 1) ∧
    (∀ L : Nat, (get_numsposs [0] (L : Int)).card = 1) := by
  refine ⟨?_, ?_, ?_⟩
  · intro blocks L hne hpos hfree
    have hdeg : 0 ≤ 1 + (L : Int) - (blocks.sum : Int) - (blocks.length : Int) := by
      omega
    rw [get_numsposs_card blocks (L : Int) hne hpos hdeg]
    congr 1
    omega
  · intro L
    rfl
  · intro L
    simp [get_numsposs]

/-- C6, witness: `claim_C6_thm` applied at the concrete hint `[2, 1]` on a
length-5 line (freedom 1, so `C(3, 2) = 3` Patterns). -/
theorem claim_C6_witness :
    (get_numsposs [2, 1] ((5 : Nat) : Int)).card =
      Nat.choose ((5 + 1 - [2, 1].sum - [2, 1].length) + [2, 1].length)
        [2, 1].length :=
  claim_C6_thm.1 [2, 1] 5 (by decide) (by decide) (by decide)

end Picross
